import Mathlib

/-!
Verification of the argument resolution engine and command dispatch of the
rbxts-command repository, as a shallow embedding in Lean 4.

The embedding mirrors the TypeScript sources:
  - `src/args/ArgumentDescriptor.ts`: the token cursor resolver
    (`parseFrom`, `compile`, the step-building operations).
  - `src/args/ArgumentParser.ts`: the multi-parser applicator
    (`parse`, `parseAny`) and the imperative buffer operations
    (`shift`, `shiftAny`, `shiftIf`, `shiftIfAny`, `pop`, `popAny`).
  - `src/Commander.ts`: the dispatch boundary (`execute`, `runExecutor`).

Machine-level conventions: TypeScript arrays become Lean lists, a value of
type `T | undefined` becomes `Option T`, and in-place mutation of an array
cell becomes `List.set` at the same index. Where reference aliasing matters
(the `describe` operation), arrays are modelled as references into an
explicit store.
-/

/-- Mirrors the `ArgumentValueParser<T>` plug-in contract of
`src/args/ArgumentParser.ts` (line 14): `parse(value: string)` yields a typed
value or `undefined` for a non-match. -/
structure ArgumentValueParser (V : Type) where
  parse : String → Option V

/-- Mirrors the `ParseStep` record of `src/args/ArgumentDescriptor.ts`
(line 6): the ordered alternative parsers of one step and its required flag. -/
structure ParseStep (V : Type) where
  parsers : List (ArgumentValueParser V)
  required : Bool

/-- The zycore `Option.set` used by the engine: the slot is a
single-assignment cell, so a `set` on an already filled cell keeps the old
value, and a `set` on an empty cell stores the argument (which may itself be
`undefined`, in which case the cell stays empty). -/
def OptionCell.set {V : Type} (cell : Option V) (v : Option V) : Option V :=
  if cell.isSome then cell else v

/-- The parser loop of `ArgumentDescriptor.parseFrom`
(`src/args/ArgumentDescriptor.ts` lines 125-128): for each parser in order,
`opt.set(parser.parse(value))`, and as soon as the option holds a value the
loop stops. Returns the final value of the option cell. -/
def runStepParsers {V : Type} (opt : Option V) (value : String) :
    List (ArgumentValueParser V) → Option V
  | [] => opt
  | p :: rest =>
    let opt2 := OptionCell.set opt (p.parse value)
    if opt2.isSome then opt2 else runStepParsers opt2 value rest

/-- Mirrors `ArgumentDescriptor.parseFrom` (`src/args/ArgumentDescriptor.ts`
lines 113-132). The source reads `args[argumentIndex]`, `steps[stepIndex]`
and `options[stepIndex]` and returns `options` unchanged when any of them is
`undefined` (out of range); otherwise it runs the parser loop on the option
cell in place (modelled by `List.set` of the final cell value), recurses with
both cursors advanced on a match, returns on a required miss, and recurses
with only the step cursor advanced on an optional miss. -/
def parseFrom {V : Type} (steps : List (ParseStep V)) (args : List String)
    (stepIndex argumentIndex : Nat) (options : List (Option V)) :
    List (Option V) :=
  match args[argumentIndex]?, options[stepIndex]? with
  | some value, some opt =>
    if h : stepIndex < steps.length then
      let step := steps[stepIndex]
      let opt2 := runStepParsers opt value step.parsers
      let options2 := options.set stepIndex opt2
      if opt2.isSome then
        parseFrom steps args (stepIndex + 1) (argumentIndex + 1) options2
      else if step.required then options2
      else parseFrom steps args (stepIndex + 1) argumentIndex options2
    else options
  | _, _ => options
termination_by steps.length - stepIndex
decreasing_by all_goals omega

/-- Mirrors `ArgumentDescriptor.compile` (`src/args/ArgumentDescriptor.ts`
lines 100-103): allocate one empty option per step (`Option.nones`) and
resolve from `stepIndex = 0`, `argumentIndex = 0`. -/
def ArgumentDescriptor.compile {V : Type} (steps : List (ParseStep V))
    (args : List String) : List (Option V) :=
  parseFrom steps args 0 0 (List.replicate steps.length none)

/-- Mirrors `ArgumentDescriptor.then` (`src/args/ArgumentDescriptor.ts`
lines 62-65): append one step. Named `thenStep` because `then` is a Lean
keyword. -/
def ArgumentDescriptor.thenStep {V : Type} (steps : List (ParseStep V))
    (parsers : List (ArgumentValueParser V)) (required : Bool) :
    List (ParseStep V) :=
  steps ++ [ParseStep.mk parsers required]

/-- Mirrors `ArgumentDescriptor.thenIf` (`src/args/ArgumentDescriptor.ts`
lines 76-80): when the condition holds, append the step as given; otherwise
append a step with no parsers whose required flag is `false`, whatever the
`required` argument was. -/
def ArgumentDescriptor.thenIf {V : Type} (steps : List (ParseStep V))
    (condition : Bool) (parsers : List (ArgumentValueParser V))
    (required : Bool) : List (ParseStep V) :=
  if condition then steps ++ [ParseStep.mk parsers required]
  else steps ++ [ParseStep.mk [] false]

/-- A parser that never matches; used to exercise the engine on concrete
inputs. -/
def pFailNat : ArgumentValueParser Nat := ArgumentValueParser.mk (fun _ => none)

/-- A parser that matches every token as the value `0`; used to exercise the
engine on concrete inputs. -/
def pZeroNat : ArgumentValueParser Nat := ArgumentValueParser.mk (fun _ => some 0)

/-- A parser that matches every token as the value `5`; used to exercise the
engine on concrete inputs. -/
def pFiveNat : ArgumentValueParser Nat := ArgumentValueParser.mk (fun _ => some 5)

/-- If the option cell starts empty and every parser of the step rejects the
token, the parser loop leaves the cell empty. -/
theorem runStepParsers_all_none {V : Type} (value : String)
    (ps : List (ArgumentValueParser V)) (hmiss : ∀ p ∈ ps, p.parse value = none) :
    runStepParsers none value ps = none := by
  induction ps with
  | nil => rfl
  | cons p rest ih =>
    have hp : p.parse value = none := hmiss p (List.mem_cons_self p rest)
    simp only [runStepParsers, OptionCell.set, hp]
    exact ih (fun q hq => hmiss q (List.mem_cons_of_mem p hq))

/-- Writing back the value a list already holds at an index leaves the list
unchanged. -/
theorem List.set_eq_self_of_getElem {α : Type} (l : List α) (i : Nat) (a : α)
    (h : l[i]? = some a) : l.set i a = l := by
  induction l generalizing i with
  | nil => simp at h
  | cons x xs ih =>
    cases i with
    | zero => simp_all
    | succ n =>
      simp only [List.getElem?_cons_succ] at h
      simp [List.set, ih n h]

/-- C1: when resolution reaches a step whose required flag is true and no
parser of that step matches the current token, `parseFrom` stops immediately
and returns the output exactly as filled so far: the slot of that step and
every later slot are left untouched, and no further token is consumed. -/
theorem required_miss_aborts {V : Type} (steps : List (ParseStep V))
    (args : List String) (stepIndex argumentIndex : Nat)
    (options : List (Option V)) (value : String) (step : ParseStep V)
    (hv : args[argumentIndex]? = some value)
    (hs : steps[stepIndex]? = some step)
    (ho : options[stepIndex]? = some none)
    (hreq : step.required = true)
    (hmiss : ∀ p ∈ step.parsers, p.parse value = none) :
    parseFrom steps args stepIndex argumentIndex options = options := by
  have hlt : stepIndex < steps.length := by
    by_contra hc
    rw [List.getElem?_eq_none (Nat.le_of_not_lt hc)] at hs
    exact Option.noConfusion hs
  have hstep : steps[stepIndex] = step := by
    have := List.getElem?_eq_getElem hlt
    rw [this] at hs
    exact Option.some.injEq _ _ ▸ hs.symm ▸ rfl
  rw [parseFrom, hv, ho]
  simp only [dif_pos hlt, hstep]
  rw [runStepParsers_all_none value step.parsers hmiss]
  simp only [Option.isSome_none, Bool.false_eq_true, if_false, hreq, if_true]
  exact List.set_eq_self_of_getElem options stepIndex none ho

/-- Witness for C1 on a concrete input: one required step whose single parser
rejects the token leaves the single slot empty. -/
theorem required_miss_aborts_witness :
    parseFrom [ParseStep.mk [pFailNat] true] ["x"] 0 0 [none] = [none] :=
  required_miss_aborts [ParseStep.mk [pFailNat] true] ["x"] 0 0 [none] "x"
    (ParseStep.mk [pFailNat] true) rfl rfl rfl rfl
    (by intro p hp; simp only [List.mem_singleton] at hp; subst hp; rfl)

/-- Shared lemma: an optional step none of whose parsers matches the current
token advances only the step cursor, leaving the output and the token cursor
unchanged. -/
theorem parseFrom_optional_miss {V : Type} (steps : List (ParseStep V))
    (args : List String) (stepIndex argumentIndex : Nat)
    (options : List (Option V)) (value : String) (step : ParseStep V)
    (hv : args[argumentIndex]? = some value)
    (hs : steps[stepIndex]? = some step)
    (ho : options[stepIndex]? = some none)
    (hreq : step.required = false)
    (hmiss : ∀ p ∈ step.parsers, p.parse value = none) :
    parseFrom steps args stepIndex argumentIndex options =
      parseFrom steps args (stepIndex + 1) argumentIndex options := by
  have hlt : stepIndex < steps.length := by
    by_contra hc
    rw [List.getElem?_eq_none (Nat.le_of_not_lt hc)] at hs
    exact Option.noConfusion hs
  have hstep : steps[stepIndex] = step := by
    have := List.getElem?_eq_getElem hlt
    rw [this] at hs
    exact Option.some.injEq _ _ ▸ hs.symm ▸ rfl
  conv_lhs => rw [parseFrom]
  rw [hv, ho]
  simp only [dif_pos hlt, hstep]
  rw [runStepParsers_all_none value step.parsers hmiss]
  simp only [Option.isSome_none, Bool.false_eq_true, if_false, hreq]
  rw [List.set_eq_self_of_getElem options stepIndex none ho]

/-- C2: when resolution reaches a step whose required flag is false and no
parser of that step matches the current token, only the step cursor advances:
`parseFrom` at `(stepIndex, argumentIndex)` equals `parseFrom` at
`(stepIndex + 1, argumentIndex)` on an unchanged output sequence, so the very
same token is offered to the next step. -/
theorem optional_miss_advances_step_only {V : Type} (steps : List (ParseStep V))
    (args : List String) (stepIndex argumentIndex : Nat)
    (options : List (Option V)) (value : String) (step : ParseStep V)
    (hv : args[argumentIndex]? = some value)
    (hs : steps[stepIndex]? = some step)
    (ho : options[stepIndex]? = some none)
    (hreq : step.required = false)
    (hmiss : ∀ p ∈ step.parsers, p.parse value = none) :
    parseFrom steps args stepIndex argumentIndex options =
      parseFrom steps args (stepIndex + 1) argumentIndex options :=
  parseFrom_optional_miss steps args stepIndex argumentIndex options value
    step hv hs ho hreq hmiss

/-- Witness for C2 on a concrete input: an optional step whose parser rejects
the token hands the same token to the next step, which parses it. -/
theorem optional_miss_advances_step_only_witness :
    parseFrom [ParseStep.mk [pFailNat] false, ParseStep.mk [pFiveNat] false]
        ["x"] 0 0 [none, none] =
      parseFrom [ParseStep.mk [pFailNat] false, ParseStep.mk [pFiveNat] false]
        ["x"] 1 0 [none, none] :=
  optional_miss_advances_step_only
    [ParseStep.mk [pFailNat] false, ParseStep.mk [pFiveNat] false] ["x"] 0 0
    [none, none] "x" (ParseStep.mk [pFailNat] false) rfl rfl rfl rfl
    (by intro p hp; simp only [List.mem_singleton] at hp; subst hp; rfl)

/-- `parseFrom` never changes the length of the output sequence. -/
theorem parseFrom_length {V : Type} (steps : List (ParseStep V))
    (args : List String) (stepIndex argumentIndex : Nat)
    (options : List (Option V)) :
    (parseFrom steps args stepIndex argumentIndex options).length =
      options.length := by
  induction stepIndex, argumentIndex, options using parseFrom.induct steps args with
  | case1 k j options value opt ho hv hlt step opt2 options2 hsome ih =>
    rw [parseFrom, hv, ho]
    simp only [dif_pos hlt, if_pos hsome]
    rw [ih]
    exact List.length_set options k opt2
  | case2 k j options value opt ho hv hlt step opt2 hsome hreq =>
    rw [parseFrom, hv, ho]
    simp only [dif_pos hlt, if_neg hsome, if_pos hreq]
    exact List.length_set options k opt2
  | case3 k j options value opt ho hv hlt step opt2 options2 hsome hreq ih =>
    rw [parseFrom, hv, ho]
    simp only [dif_pos hlt, if_neg hsome, if_neg hreq]
    rw [ih]
    exact List.length_set options k opt2
  | case4 k j options value opt ho hv hlt =>
    rw [parseFrom, hv, ho]
    simp [dif_neg hlt]
  | case5 k j options hnone =>
    rw [parseFrom]
    rcases hval : args[j]? with _ | value <;>
      rcases hopt : options[k]? with _ | opt <;> simp_all

/-- C3: the output slot sequence of `compile` always has exactly one slot per
step, whatever the token sequence (including no tokens at all and more tokens
than steps). -/
theorem compile_length {V : Type} (steps : List (ParseStep V))
    (args : List String) :
    (ArgumentDescriptor.compile steps args).length = steps.length := by
  rw [ArgumentDescriptor.compile, parseFrom_length]
  exact List.length_replicate steps.length none

/-- The first-match loop of `ArgumentParser.parse`
(`src/args/ArgumentParser.ts` lines 209-212): try each parser in order and
return the first result that is not `undefined`. -/
def firstParse {V : Type} (v : String) :
    List (ArgumentValueParser V) → Option V
  | [] => none
  | p :: rest =>
    match p.parse v with
    | some r => some r
    | none => firstParse v rest

/-- Mirrors `ArgumentParser.parse` (`src/args/ArgumentParser.ts`
lines 206-213): `undefined` input yields `undefined`, otherwise the first
parser result that is not `undefined` wins. -/
def ArgumentParser.parse {V : Type} (value : Option String)
    (parsers : List (ArgumentValueParser V)) : Option V :=
  match value with
  | none => none
  | some v => firstParse v parsers

/-- The indexed loop of `ArgumentParser.parseAny`
(`src/args/ArgumentParser.ts` lines 226-234): at index `i`, parse the value
with `parsers[i]`; if the result is not `undefined`, `set` it into slot `i`;
stop as soon as the slot holds a value, else continue with `i + 1`. -/
def parseAnyLoop {V : Type} (parsers : List (ArgumentValueParser V))
    (v : String) (i : Nat) (results : List (Option V)) : List (Option V) :=
  if h : i < parsers.length then
    let parser := parsers[i]
    let slot := results.getD i none
    let r := parser.parse v
    let slot2 := if r.isSome then OptionCell.set slot r else slot
    let results2 := results.set i slot2
    if slot2.isSome then results2
    else parseAnyLoop parsers v (i + 1) results2
  else results
termination_by parsers.length - i
decreasing_by all_goals omega

/-- Mirrors `ArgumentParser.parseAny` (`src/args/ArgumentParser.ts`
lines 222-237): allocate one empty option per parser (`Option.nones`), return
them untouched when the value is `undefined`, otherwise run the loop from
index 0. -/
def ArgumentParser.parseAny {V : Type} (value : Option String)
    (parsers : List (ArgumentValueParser V)) : List (Option V) :=
  let results := List.replicate parsers.length none
  match value with
  | none => results
  | some v => parseAnyLoop parsers v 0 results

/-- Mirrors `ArgumentParser.shift` (`src/args/ArgumentParser.ts` lines 87-89):
`args.shift()` removes and returns the first element unconditionally, then the
first-match applicator parses it. The pair holds the parse result and the
buffer after the call. -/
def ArgumentParser.shift {V : Type} (args : List String)
    (parsers : List (ArgumentValueParser V)) : Option V × List String :=
  (ArgumentParser.parse args.head? parsers, args.tail)

/-- Mirrors `ArgumentParser.shiftAny` (`src/args/ArgumentParser.ts`
lines 101-103): like `shift`, with the collect-all applicator. -/
def ArgumentParser.shiftAny {V : Type} (args : List String)
    (parsers : List (ArgumentValueParser V)) : List (Option V) × List String :=
  (ArgumentParser.parseAny args.head? parsers, args.tail)

/-- Mirrors `ArgumentParser.shiftIf` (`src/args/ArgumentParser.ts`
lines 113-118): parse `args[0]` in place, and only when the result is not
`undefined` remove index 0 from the buffer. -/
def ArgumentParser.shiftIf {V : Type} (args : List String)
    (parsers : List (ArgumentValueParser V)) : Option V × List String :=
  let result := ArgumentParser.parse args[0]? parsers
  (result, if result.isSome then args.eraseIdx 0 else args)

/-- Mirrors `ArgumentParser.shiftIfAny` (`src/args/ArgumentParser.ts`
lines 131-136): parse `args[0]` with the collect-all applicator, and only
when some slot holds a value remove index 0 from the buffer. -/
def ArgumentParser.shiftIfAny {V : Type} (args : List String)
    (parsers : List (ArgumentValueParser V)) : List (Option V) × List String :=
  let result := ArgumentParser.parseAny args[0]? parsers
  (result, if result.any (fun o => o.isSome) then args.eraseIdx 0 else args)

/-- Mirrors `ArgumentParser.pop` (`src/args/ArgumentParser.ts`
lines 145-147): `args.pop()` removes and returns the last element
unconditionally, then the first-match applicator parses it. -/
def ArgumentParser.pop {V : Type} (args : List String)
    (parsers : List (ArgumentValueParser V)) : Option V × List String :=
  (ArgumentParser.parse args.getLast? parsers, args.dropLast)

/-- Mirrors `ArgumentParser.popAny` (`src/args/ArgumentParser.ts`
lines 160-162): like `pop`, with the collect-all applicator. -/
def ArgumentParser.popAny {V : Type} (args : List String)
    (parsers : List (ArgumentValueParser V)) : List (Option V) × List String :=
  (ArgumentParser.parseAny args.getLast? parsers, args.dropLast)

/-- Reading any index of an all-empty slot sequence with default `none`
gives `none`. -/
theorem getD_replicate_none {V : Type} (n i : Nat) :
    (List.replicate (α := Option V) n none).getD i none = none := by
  rcases Nat.lt_or_ge i n with h | h
  · simp [List.getD, List.getElem?_replicate, h]
  · have : (List.replicate (α := Option V) n none)[i]? = none :=
      List.getElem?_eq_none (by simp only [List.length_replicate]; omega)
    simp [List.getD, this]

/-- Writing `none` into an all-empty slot sequence changes nothing. -/
theorem set_replicate_none {V : Type} (n i : Nat) :
    (List.replicate (α := Option V) n none).set i none =
      List.replicate n none := by
  rcases Nat.lt_or_ge i n with h | h
  · exact List.set_eq_self_of_getElem _ i none (by simp [List.getElem?_replicate, h])
  · exact List.set_eq_of_length_le (by simp only [List.length_replicate]; omega)

/-- If every parser from index `i` on rejects the token, the collect-all loop
returns the slot sequence untouched. -/
theorem parseAnyLoop_all_fail {V : Type} (ps : List (ArgumentValueParser V))
    (v : String) (i : Nat)
    (hfail : ∀ j q, i ≤ j → ps[j]? = some q → q.parse v = none) :
    parseAnyLoop ps v i (List.replicate ps.length none) =
      List.replicate ps.length none := by
  obtain ⟨d, hd⟩ : ∃ d, ps.length - i = d := ⟨_, rfl⟩
  induction d generalizing i with
  | zero =>
    have hge : ps.length ≤ i := by omega
    rw [parseAnyLoop, dif_neg (Nat.not_lt.mpr hge)]
  | succ d ih =>
    have hlt : i < ps.length := by omega
    have hq : ps[i].parse v = none :=
      hfail i ps[i] (Nat.le_refl i) (List.getElem?_eq_getElem hlt)
    rw [parseAnyLoop, dif_pos hlt]
    simp only [getD_replicate_none, hq, Option.isSome_none, Bool.false_eq_true,
      if_false, set_replicate_none]
    exact ih (i + 1) (fun j q hij => hfail j q (by omega)) (by omega)

/-- If every parser strictly between index `i` and index `k` rejects the token
and the parser at `k` accepts it as `w`, the collect-all loop started at `i`
fills exactly slot `k` with `w` and stops. -/
theorem parseAnyLoop_first_success {V : Type} (ps : List (ArgumentValueParser V))
    (v : String) (k : Nat) (p : ArgumentValueParser V) (w : V)
    (hk : ps[k]? = some p) (hw : p.parse v = some w) (i : Nat) (hik : i ≤ k)
    (hfail : ∀ j q, i ≤ j → j < k → ps[j]? = some q → q.parse v = none) :
    parseAnyLoop ps v i (List.replicate ps.length none) =
      (List.replicate ps.length none).set k (some w) := by
  have hklen : k < ps.length := by
    by_contra hc
    rw [List.getElem?_eq_none (Nat.le_of_not_lt hc)] at hk
    exact Option.noConfusion hk
  obtain ⟨d, hd⟩ : ∃ d, k - i = d := ⟨_, rfl⟩
  induction d generalizing i with
  | zero =>
    have hik2 : i = k := by omega
    subst hik2
    have hpi : ps[i] = p := by
      have := List.getElem?_eq_getElem hklen
      rw [this] at hk
      exact Option.some.injEq _ _ ▸ hk.symm ▸ rfl
    rw [parseAnyLoop, dif_pos hklen]
    simp [hpi, hw, getD_replicate_none, OptionCell.set]
  | succ d ih =>
    have hlt : i < ps.length := by omega
    have hq : ps[i].parse v = none :=
      hfail i ps[i] (Nat.le_refl i) (by omega) (List.getElem?_eq_getElem hlt)
    rw [parseAnyLoop, dif_pos hlt]
    simp only [getD_replicate_none, hq, Option.isSome_none, Bool.false_eq_true,
      if_false, set_replicate_none]
    exact ih (i + 1) (by omega) (fun j q hij => hfail j q (by omega)) (by omega)

/-- C4: in collect-all mode, an absent input token yields one empty slot per
parser without any parser being consulted (the result does not depend on the
parsers at all, only on how many there are), and on a present token the
parsers are tried in order and iteration stops at the first one that yields a
value: exactly that slot is filled, and every other slot — including every
higher-index slot, whatever its parser would have said — remains empty. -/
theorem parseAny_first_success_wins {V : Type}
    (parsers : List (ArgumentValueParser V)) :
    ArgumentParser.parseAny none parsers = List.replicate parsers.length none ∧
    (∀ ps2 : List (ArgumentValueParser V), ps2.length = parsers.length →
      ArgumentParser.parseAny (none : Option String) parsers =
        ArgumentParser.parseAny none ps2) ∧
    (∀ v k p w, parsers[k]? = some p → p.parse v = some w →
      (∀ j q, j < k → parsers[j]? = some q → q.parse v = none) →
      ArgumentParser.parseAny (some v) parsers =
        (List.replicate parsers.length none).set k (some w)) := by
  refine ⟨rfl, ?_, ?_⟩
  · intro ps2 hlen
    show List.replicate parsers.length none = List.replicate ps2.length none
    rw [hlen]
  · intro v k p w hk hw hfail
    show parseAnyLoop parsers v 0 (List.replicate parsers.length none) = _
    exact parseAnyLoop_first_success parsers v k p w hk hw 0 (Nat.zero_le k)
      (fun j q _ => hfail j q)

/-- Witness for C4 on a concrete input: of three parsers where the second and
the third both match, only the slot of the second is filled; and with the
token absent the three slots come back empty. -/
theorem parseAny_first_success_wins_witness :
    ArgumentParser.parseAny (some "x") [pFailNat, pZeroNat, pFiveNat] =
      [none, some 0, none] ∧
    ArgumentParser.parseAny none [pFailNat, pZeroNat, pFiveNat] =
      [none, none, none] := by
  have h := parseAny_first_success_wins [pFailNat, pZeroNat, pFiveNat]
  constructor
  · have h3 := h.2.2 "x" 1 pZeroNat 0 rfl rfl (by
      intro j q hj hq
      interval_cases j
      · simp only [List.getElem?_cons_zero, Option.some.injEq] at hq
        subst hq
        rfl)
    simpa using h3
  · simpa using h.1

/-- The first-match loop finds a value exactly when some parser in the list
accepts the token. -/
theorem firstParse_isSome_iff {V : Type} (v : String)
    (ps : List (ArgumentValueParser V)) :
    (firstParse v ps).isSome = true ↔ ∃ p ∈ ps, (p.parse v).isSome = true := by
  induction ps with
  | nil => simp [firstParse]
  | cons p rest ih =>
    rcases hp : p.parse v with _ | w
    · simp [firstParse, hp, ih]
    · simp [firstParse, hp]

/-- The collect-all loop started at index `i` over all-empty slots ends with
some filled slot exactly when some parser at an index at least `i` accepts
the token. -/
theorem parseAnyLoop_any_isSome_iff {V : Type}
    (ps : List (ArgumentValueParser V)) (v : String) (i : Nat) :
    ((parseAnyLoop ps v i (List.replicate ps.length none)).any
        (fun o => o.isSome)) = true ↔
      ∃ j q, i ≤ j ∧ ps[j]? = some q ∧ (q.parse v).isSome = true := by
  obtain ⟨d, hd⟩ : ∃ d, ps.length - i = d := ⟨_, rfl⟩
  induction d generalizing i with
  | zero =>
    have hge : ps.length ≤ i := by omega
    rw [parseAnyLoop, dif_neg (Nat.not_lt.mpr hge)]
    constructor
    · intro h
      rw [List.any_eq_true] at h
      obtain ⟨o, ho, hs⟩ := h
      rw [List.eq_of_mem_replicate ho] at hs
      simp at hs
    · rintro ⟨j, q, hij, hjq, _⟩
      exfalso
      have : j < ps.length := by
        by_contra hc
        rw [List.getElem?_eq_none (Nat.le_of_not_lt hc)] at hjq
        exact Option.noConfusion hjq
      omega
  | succ d ih =>
    have hlt : i < ps.length := by omega
    rcases hq : ps[i].parse v with _ | w
    · rw [parseAnyLoop, dif_pos hlt]
      simp only [getD_replicate_none, hq, Option.isSome_none, Bool.false_eq_true,
        if_false, set_replicate_none]
      rw [ih (i + 1) (by omega)]
      constructor
      · rintro ⟨j, q, hij, hjq, hs⟩
        exact ⟨j, q, by omega, hjq, hs⟩
      · rintro ⟨j, q, hij, hjq, hs⟩
        refine ⟨j, q, ?_, hjq, hs⟩
        rcases Nat.eq_or_lt_of_le hij with heq | hlt2
        · exfalso
          rw [← heq, List.getElem?_eq_getElem hlt] at hjq
          have hpq : ps[i] = q := Option.some_injective _ hjq
          rw [← hpq, hq] at hs
          simp at hs
        · omega
    · rw [parseAnyLoop, dif_pos hlt]
      simp only [getD_replicate_none, hq, OptionCell.set, Option.isSome_none,
        Bool.false_eq_true, if_false, Option.isSome_some, if_true]
      constructor
      · intro _
        exact ⟨i, ps[i], Nat.le_refl i, List.getElem?_eq_getElem hlt,
          by rw [hq]; rfl⟩
      · intro _
        rw [List.any_eq_true]
        refine ⟨some w, ?_, rfl⟩
        refine List.mem_iff_getElem?.mpr ⟨i, ?_⟩
        exact List.getElem?_set_self (by simpa using hlt)

/-- The first-match applicator on a present token finds a value exactly when
some parser accepts the token. -/
theorem parse_isSome_iff {V : Type} (t : String)
    (ps : List (ArgumentValueParser V)) :
    (ArgumentParser.parse (some t) ps).isSome = true ↔
      ∃ p ∈ ps, (p.parse t).isSome = true :=
  firstParse_isSome_iff t ps

/-- The collect-all applicator on a present token fills some slot exactly
when some parser accepts the token. -/
theorem parseAny_any_isSome_iff {V : Type} (t : String)
    (ps : List (ArgumentValueParser V)) :
    ((ArgumentParser.parseAny (some t) ps).any (fun o => o.isSome)) = true ↔
      ∃ p ∈ ps, (p.parse t).isSome = true := by
  show ((parseAnyLoop ps t 0 (List.replicate ps.length none)).any
      (fun o => o.isSome)) = true ↔ _
  rw [parseAnyLoop_any_isSome_iff]
  constructor
  · rintro ⟨j, q, _, hjq, hs⟩
    exact ⟨q, List.mem_iff_getElem?.mpr ⟨j, hjq⟩, hs⟩
  · rintro ⟨q, hq, hs⟩
    obtain ⟨j, hj⟩ := List.mem_iff_getElem?.mp hq
    exact ⟨j, q, Nat.zero_le j, hj, hs⟩

/-- C9: the conditional take-from-front operations (`shiftIf`, `shiftIfAny`)
remove the front token exactly when some parser matched it and leave the
buffer unchanged otherwise, while the plain take operations (`shift`,
`shiftAny`, `pop`, `popAny`) drop the front respectively back token whether or
not any parser matched. -/
theorem take_variants_consume {V : Type} (t : String) (rest : List String)
    (args : List String) (parsers : List (ArgumentValueParser V)) :
    (ArgumentParser.shift (t :: rest) parsers).2 = rest ∧
    (ArgumentParser.shiftAny (t :: rest) parsers).2 = rest ∧
    (ArgumentParser.pop args parsers).2 = args.dropLast ∧
    (ArgumentParser.popAny args parsers).2 = args.dropLast ∧
    ((ArgumentParser.shiftIf (t :: rest) parsers).2 = rest ↔
      ∃ p ∈ parsers, (p.parse t).isSome = true) ∧
    ((ArgumentParser.shiftIf (t :: rest) parsers).2 = t :: rest ↔
      ¬ ∃ p ∈ parsers, (p.parse t).isSome = true) ∧
    ((ArgumentParser.shiftIfAny (t :: rest) parsers).2 = rest ↔
      ∃ p ∈ parsers, (p.parse t).isSome = true) ∧
    ((ArgumentParser.shiftIfAny (t :: rest) parsers).2 = t :: rest ↔
      ¬ ∃ p ∈ parsers, (p.parse t).isSome = true) := by
  have hne : rest ≠ t :: rest := by
    intro h
    have := congrArg List.length h
    simp at this
  refine ⟨rfl, rfl, rfl, rfl, ?_, ?_, ?_, ?_⟩ <;>
    by_cases hm : ∃ p ∈ parsers, (p.parse t).isSome = true
  · have := (parse_isSome_iff t parsers).mpr hm
    simp [ArgumentParser.shiftIf, this, hm]
  · have : (ArgumentParser.parse (some t) parsers).isSome = false := by
      rw [Bool.eq_false_iff]
      intro hc
      exact hm ((parse_isSome_iff t parsers).mp hc)
    simp [ArgumentParser.shiftIf, this, hm, hne.symm]
  · have := (parse_isSome_iff t parsers).mpr hm
    simp [ArgumentParser.shiftIf, this, hm, hne]
  · have : (ArgumentParser.parse (some t) parsers).isSome = false := by
      rw [Bool.eq_false_iff]
      intro hc
      exact hm ((parse_isSome_iff t parsers).mp hc)
    simp [ArgumentParser.shiftIf, this, hm]
  · have := (parseAny_any_isSome_iff t parsers).mpr hm
    simp [ArgumentParser.shiftIfAny, this, hm]
  · have : ((ArgumentParser.parseAny (some t) parsers).any
        (fun o => o.isSome)) = false := by
      rw [Bool.eq_false_iff]
      intro hc
      exact hm ((parseAny_any_isSome_iff t parsers).mp hc)
    simp [ArgumentParser.shiftIfAny, this, hm, hne.symm]
  · have := (parseAny_any_isSome_iff t parsers).mpr hm
    simp [ArgumentParser.shiftIfAny, this, hm, hne]
  · have : ((ArgumentParser.parseAny (some t) parsers).any
        (fun o => o.isSome)) = false := by
      rw [Bool.eq_false_iff]
      intro hc
      exact hm ((parseAny_any_isSome_iff t parsers).mp hc)
    simp [ArgumentParser.shiftIfAny, this, hm]

/-- A store of allocated string arrays: TypeScript array objects are
references, so the buffer of an `ArgumentParser` and the captured
`defaultArgs` of an `ArgumentDescriptor` are modelled as indices into this
store. -/
structure Store where
  arrays : List (List String)

/-- Allocate a fresh array holding the given contents and return its
reference. -/
def Store.alloc (s : Store) (v : List String) : Store × Nat :=
  (Store.mk (s.arrays ++ [v]), s.arrays.length)

/-- Read the array behind a reference. -/
def Store.read (s : Store) (r : Nat) : List String :=
  (s.arrays[r]?).getD []

/-- Overwrite the array behind a reference in place. -/
def Store.write (s : Store) (r : Nat) (v : List String) : Store :=
  Store.mk (s.arrays.set r v)

/-- The identity of one `ArgumentParser` instance: the reference to its
private `args` array (`src/args/ArgumentParser.ts` line 37). -/
structure ArgumentParserRef where
  args : Nat

/-- The identity of one `ArgumentDescriptor` instance: the reference captured
as `private defaultArgs` by the constructor
(`src/args/ArgumentDescriptor.ts` line 54) — the constructor stores the given
array itself, it does not copy it. -/
structure ArgumentDescriptorRef where
  defaultArgs : Nat

/-- Mirrors the `ArgumentParser` constructor (`src/args/ArgumentParser.ts`
lines 47-50): the field initializer allocates a fresh array and, when the
input is not empty, `this.args = [...args]` spreads the input into a fresh
array; either way the parser owns a fresh array whose contents are the
input. -/
def ArgumentParser.new (s : Store) (input : List String) :
    Store × ArgumentParserRef :=
  let sr := Store.alloc s input
  (sr.1, ArgumentParserRef.mk sr.2)

/-- Mirrors `ArgumentParser.describe` (`src/args/ArgumentParser.ts`
lines 195-197): `new ArgumentDescriptor(this.args)` hands the private buffer
itself — the same reference — to the descriptor. -/
def ArgumentParserRef.describe (p : ArgumentParserRef) : ArgumentDescriptorRef :=
  ArgumentDescriptorRef.mk p.args

/-- `ArgumentParser.shift` at the store level: read the buffer behind the
reference, run the pure `shift` of `src/args/ArgumentParser.ts` lines 87-89
on it, and write the shortened buffer back in place. -/
def ArgumentParser.shiftS {V : Type} (s : Store) (p : ArgumentParserRef)
    (parsers : List (ArgumentValueParser V)) : Option V × Store :=
  let r := ArgumentParser.shift (s.read p.args) parsers
  (r.1, s.write p.args r.2)

/-- `ArgumentDescriptor.compile` with no argument
(`src/args/ArgumentDescriptor.ts` line 100) reads the captured `defaultArgs`
reference at call time. -/
def ArgumentDescriptorRef.compileDefault {V : Type} (s : Store)
    (d : ArgumentDescriptorRef) (steps : List (ParseStep V)) : List (Option V) :=
  ArgumentDescriptor.compile steps (s.read d.defaultArgs)

/-- C6 counterexample: a parser is built over the token `a`, `describe`
creates a descriptor from it, and one mutating `shift` on the buffer changes
the token sequence the descriptor reads for its default compile — the claim
that the captured default token sequence stays unchanged fails here. -/
theorem describe_default_changes :
    Store.read (ArgumentParser.shiftS (ArgumentParser.new (Store.mk []) ["a"]).1
        (ArgumentParser.new (Store.mk []) ["a"]).2 [pZeroNat]).2
      ((ArgumentParser.new (Store.mk []) ["a"]).2.describe).defaultArgs ≠
    Store.read (ArgumentParser.new (Store.mk []) ["a"]).1
      ((ArgumentParser.new (Store.mk []) ["a"]).2.describe).defaultArgs := by
  decide

/-- C6 (amended): the buffer mutated by the take operations is the fresh
array allocated by the parser constructor, so no array other than that buffer
is affected; but `describe` captures that very buffer by reference, so after
a mutating `shift` the descriptor reads the shortened buffer (the tail of the
input) as its default token sequence. -/
theorem describe_aliases_buffer {V : Type} (s : Store) (input : List String)
    (parsers : List (ArgumentValueParser V)) :
    ((ArgumentParser.new s input).2.describe).defaultArgs =
        (ArgumentParser.new s input).2.args ∧
    Store.read (ArgumentParser.shiftS (ArgumentParser.new s input).1
          (ArgumentParser.new s input).2 parsers).2
        ((ArgumentParser.new s input).2.describe).defaultArgs = input.tail ∧
    (∀ r, r ≠ (ArgumentParser.new s input).2.args →
      Store.read (ArgumentParser.shiftS (ArgumentParser.new s input).1
            (ArgumentParser.new s input).2 parsers).2 r =
        Store.read (ArgumentParser.new s input).1 r) := by
  have hread : Store.read (Store.mk (s.arrays ++ [input])) s.arrays.length =
      input := by
    simp [Store.read, List.getElem?_concat_length]
  refine ⟨rfl, ?_, ?_⟩
  · simp only [ArgumentParser.new, Store.alloc, ArgumentParserRef.describe,
      ArgumentParser.shiftS, ArgumentParser.shift, Store.write, hread]
    simp only [Store.read]
    rw [List.getElem?_set_self (by simp)]
    rfl
  · intro r hr
    simp only [ArgumentParser.new, Store.alloc] at hr
    simp only [ArgumentParser.new, Store.alloc, ArgumentParser.shiftS,
      ArgumentParser.shift, Store.write, Store.read]
    rw [List.getElem?_set_ne (fun h => hr h.symm)]

/-- Witness for C6 (amended) on a concrete input: after one `shift`, the
descriptor created by `describe` reads `[]` where the input was `[a]`, while
an unrelated reference is untouched. -/
theorem describe_aliases_buffer_witness :
    Store.read (ArgumentParser.shiftS (ArgumentParser.new (Store.mk [["z"]]) ["a"]).1
          (ArgumentParser.new (Store.mk [["z"]]) ["a"]).2 [pZeroNat]).2
        ((ArgumentParser.new (Store.mk [["z"]]) ["a"]).2.describe).defaultArgs =
      ["a"].tail ∧
    Store.read (ArgumentParser.shiftS (ArgumentParser.new (Store.mk [["z"]]) ["a"]).1
          (ArgumentParser.new (Store.mk [["z"]]) ["a"]).2 [pZeroNat]).2 0 =
      Store.read (ArgumentParser.new (Store.mk [["z"]]) ["a"]).1 0 :=
  And.intro (describe_aliases_buffer (Store.mk [["z"]]) ["a"] [pZeroNat]).2.1
    ((describe_aliases_buffer (Store.mk [["z"]]) ["a"] [pZeroNat]).2.2 0 (by decide))

/-- Mirrors the `ExecutionResult` enum of `src/ExecutionResult.ts`: the
immediate dispatch outcome handed back to the caller. -/
inductive ExecutionResult where
  | EXECUTED
  | NOT_FOUND
  | NO_PERMISSION
deriving DecidableEq

/-- One run of a registered handler, as the dispatch boundary observes it:
the handler either returns a value — of which only whether it is the literal
`false` matters — or raises an error. -/
inductive ExecutorRun where
  | returns (resultIsFalse : Bool)
  | throws (err : String)

/-- Mirrors `Commander.runExecutor` (`src/Commander.ts` lines 170-180):
`let success = false; try { result = executor(...); success = result !== false }
finally {}` — the `finally` block is empty and there is no catch clause, so
when the executor raises, the error propagates out of the async function and
rejects its promise (`Except.error`); only when the executor returns does the
promise resolve with `success`. -/
def Commander.runExecutor (run : ExecutorRun) : Except String Bool :=
  match run with
  | ExecutorRun.returns resultIsFalse => Except.ok (!resultIsFalse)
  | ExecutorRun.throws e => Except.error e

/-- Mirrors `Commander.execute` (`src/Commander.ts` lines 149-161): after the
eligibility check, `runExecutor(...).then(res => commandHook(...))` is
scheduled and `EXECUTED` is returned immediately. The first component is the
immediate result given to the caller; the second is the completion outcome
delivered to the command hook — `some res` when the promise resolves and the
hook runs, `none` when the promise is rejected, in which case the `then`
callback never fires and the hook is never invoked. -/
def Commander.execute (canExecute : Bool) (run : ExecutorRun) :
    ExecutionResult × Option Bool :=
  if !canExecute then (ExecutionResult.NO_PERMISSION, none)
  else
    match Commander.runExecutor run with
    | Except.ok res => (ExecutionResult.EXECUTED, some res)
    | Except.error _ => (ExecutionResult.EXECUTED, none)

/-- C7: when the handler raises, the caller that triggered dispatch still
gets its immediate `EXECUTED` result and the error does not escape to it, but
the dispatch boundary does not catch the error: `runExecutor` has no catch
clause, so the promise is rejected and the completion hook never receives a
did-not-succeed outcome (it receives nothing at all), contradicting the
claim. -/
theorem handler_throw_hook_never_called :
    Commander.execute true (ExecutorRun.throws "boom") =
      (ExecutionResult.EXECUTED, none) ∧
    Commander.runExecutor (ExecutorRun.throws "boom") =
      Except.error "boom" ∧
    (Commander.execute true (ExecutorRun.throws "boom")).2 ≠ some false :=
  And.intro rfl (And.intro rfl (by simp [Commander.execute, Commander.runExecutor]))

/-- The parser loop of `parseFrom` instrumented with call counting: the
result triple holds the final cell value, how many times `opt.set` was called
(the source calls it once per parser tried, lines 125-128 of
`src/args/ArgumentDescriptor.ts`), and how many of those calls passed an
actual value rather than `undefined`. -/
def runStepParsersCount {V : Type} (opt : Option V) (value : String) :
    List (ArgumentValueParser V) → Option V × Nat × Nat
  | [] => (opt, 0, 0)
  | p :: rest =>
    let r := p.parse value
    let opt2 := OptionCell.set opt r
    if opt2.isSome then (opt2, 1, if r.isSome then 1 else 0)
    else
      let res := runStepParsersCount opt2 value rest
      (res.1, res.2.1 + 1, res.2.2 + (if r.isSome then 1 else 0))

/-- `parseFrom` instrumented with the recursion depth (the number of
recursive self-invocations performed below the initial call) and with two
per-slot counters: `sets i` counts the `set` calls received by slot `i`, and
`fills i` counts those `set` calls that passed a value. The computation is
the same as `parseFrom`, only bookkeeping is added. -/
def parseFromInstr {V : Type} (steps : List (ParseStep V)) (args : List String)
    (stepIndex argumentIndex : Nat) (options : List (Option V))
    (sets fills : Nat → Nat) (depth : Nat) :
    List (Option V) × (Nat → Nat) × (Nat → Nat) × Nat :=
  match args[argumentIndex]?, options[stepIndex]? with
  | some value, some opt =>
    if h : stepIndex < steps.length then
      let step := steps[stepIndex]
      let res := runStepParsersCount opt value step.parsers
      let options2 := options.set stepIndex res.1
      let sets2 := fun i => if i = stepIndex then sets i + res.2.1 else sets i
      let fills2 := fun i => if i = stepIndex then fills i + res.2.2 else fills i
      if res.1.isSome then
        parseFromInstr steps args (stepIndex + 1) (argumentIndex + 1) options2
          sets2 fills2 (depth + 1)
      else if step.required then (options2, sets2, fills2, depth)
      else parseFromInstr steps args (stepIndex + 1) argumentIndex options2
        sets2 fills2 (depth + 1)
    else (options, sets, fills, depth)
  | _, _ => (options, sets, fills, depth)
termination_by steps.length - stepIndex
decreasing_by all_goals omega

/-- One instrumented `compile` run: empty slots, zeroed counters, depth 0. -/
def compileInstr {V : Type} (steps : List (ParseStep V)) (args : List String) :
    List (Option V) × (Nat → Nat) × (Nat → Nat) × Nat :=
  parseFromInstr steps args 0 0 (List.replicate steps.length none)
    (fun _ => 0) (fun _ => 0) 0

/-- The recursion depth of one `compile` run. -/
def compileDepth {V : Type} (steps : List (ParseStep V)) (args : List String) :
    Nat :=
  (compileInstr steps args).2.2.2

/-- How many `set` calls slot `i` receives during one `compile` run. -/
def compileSetCalls {V : Type} (steps : List (ParseStep V))
    (args : List String) : Nat → Nat :=
  (compileInstr steps args).2.1

/-- How many value-carrying `set` calls slot `i` receives during one
`compile` run. -/
def compileFillCalls {V : Type} (steps : List (ParseStep V))
    (args : List String) : Nat → Nat :=
  (compileInstr steps args).2.2.1

/-- The instrumented parser loop computes the same cell value as the plain
one. -/
theorem runStepParsersCount_fst {V : Type} (opt : Option V) (v : String)
    (ps : List (ArgumentValueParser V)) :
    (runStepParsersCount opt v ps).1 = runStepParsers opt v ps := by
  induction ps generalizing opt with
  | nil => rfl
  | cons p rest ih =>
    rw [runStepParsersCount, runStepParsers]
    by_cases h : (OptionCell.set opt (p.parse v)).isSome
    · simp [h]
    · simp [h, ih]

/-- The instrumented resolver computes the same output slots as `parseFrom`. -/
theorem parseFromInstr_options_eq {V : Type} (steps : List (ParseStep V))
    (args : List String) (stepIndex argumentIndex : Nat)
    (options : List (Option V)) (sets fills : Nat → Nat) (depth : Nat) :
    (parseFromInstr steps args stepIndex argumentIndex options sets
        fills depth).1 =
      parseFrom steps args stepIndex argumentIndex options := by
  obtain ⟨m, hm⟩ : ∃ m, steps.length - stepIndex = m := ⟨_, rfl⟩
  induction m generalizing stepIndex argumentIndex options sets fills depth with
  | zero =>
    have hge : ¬ stepIndex < steps.length := by omega
    rw [parseFromInstr, parseFrom]
    rcases hval : args[argumentIndex]? with _ | value <;>
      rcases hopt : options[stepIndex]? with _ | opt <;> simp [dif_neg hge]
  | succ m ih =>
    rw [parseFromInstr, parseFrom]
    rcases hval : args[argumentIndex]? with _ | value <;>
      rcases hopt : options[stepIndex]? with _ | opt
    · rfl
    · rfl
    · rfl
    · by_cases hlt : stepIndex < steps.length
      · simp only [dif_pos hlt, runStepParsersCount_fst]
        by_cases hsome :
            (runStepParsers opt value steps[stepIndex].parsers).isSome = true
        · simp only [if_pos hsome]
          exact ih _ _ _ _ _ _ (by omega)
        · by_cases hreq : steps[stepIndex].required = true
          · simp only [if_neg hsome, if_pos hreq]
          · simp only [if_neg hsome, if_neg hreq]
            exact ih _ _ _ _ _ _ (by omega)
      · simp [dif_neg hlt]

/-- Extracting the element behind a successful indexed lookup. -/
theorem List.getElem_eq_of_some {α : Type} (l : List α) (i : Nat) (a : α)
    (hlt : i < l.length) (h : l[i]? = some a) : l[i] = a := by
  rw [List.getElem?_eq_getElem hlt] at h
  exact Option.some_injective _ h

/-- The instrumented parser loop calls `set` once per parser tried, so at
most once per parser of the step. -/
theorem runStepParsersCount_setCalls_le {V : Type} (opt : Option V)
    (v : String) (ps : List (ArgumentValueParser V)) :
    (runStepParsersCount opt v ps).2.1 ≤ ps.length := by
  induction ps generalizing opt with
  | nil => simp [runStepParsersCount]
  | cons p rest ih =>
    rw [runStepParsersCount]
    by_cases h : (OptionCell.set opt (p.parse v)).isSome = true
    · simp only [if_pos h, List.length_cons]
      omega
    · simp only [if_neg h, List.length_cons]
      have := ih (OptionCell.set opt (p.parse v))
      omega

/-- At most one `set` call of the parser loop passes a value: the loop stops
at the first parser whose result fills the cell. -/
theorem runStepParsersCount_fillCalls_le {V : Type} (opt : Option V)
    (v : String) (ps : List (ArgumentValueParser V)) :
    (runStepParsersCount opt v ps).2.2 ≤ 1 := by
  induction ps generalizing opt with
  | nil => simp [runStepParsersCount]
  | cons p rest ih =>
    rw [runStepParsersCount]
    by_cases h : (OptionCell.set opt (p.parse v)).isSome = true
    · by_cases hr : (p.parse v).isSome = true <;> simp [h, hr]
    · have hr : ¬ (p.parse v).isSome = true := by
        intro hc
        rw [OptionCell.set] at h
        by_cases ho : opt.isSome = true
        · rw [if_pos ho] at h
          exact h ho
        · rw [if_neg ho] at h
          exact h hc
      simp only [if_neg h, if_neg hr, Nat.add_zero]
      exact ih (OptionCell.set opt (p.parse v))

/-- Per-slot accounting of the instrumented resolver: counters of slots
before the current step cursor are left as given, and every slot from the
cursor on receives at most one value-carrying `set` call and at most one
`set` call per parser of its step. -/
theorem parseFromInstr_counts {V : Type} (steps : List (ParseStep V))
    (args : List String) (stepIndex argumentIndex : Nat)
    (options : List (Option V)) (sets fills : Nat → Nat) (depth : Nat) :
    (∀ i, i < stepIndex →
      (parseFromInstr steps args stepIndex argumentIndex options sets fills
          depth).2.1 i = sets i ∧
      (parseFromInstr steps args stepIndex argumentIndex options sets fills
          depth).2.2.1 i = fills i) ∧
    (∀ i, stepIndex ≤ i →
      (parseFromInstr steps args stepIndex argumentIndex options sets fills
          depth).2.2.1 i ≤ fills i + 1 ∧
      ∀ st, steps[i]? = some st →
        (parseFromInstr steps args stepIndex argumentIndex options sets fills
            depth).2.1 i ≤ sets i + st.parsers.length) := by
  obtain ⟨m, hm⟩ : ∃ m, steps.length - stepIndex = m := ⟨_, rfl⟩
  induction m generalizing stepIndex argumentIndex options sets fills depth with
  | zero =>
    have hge : ¬ stepIndex < steps.length := by omega
    have hstuck : parseFromInstr steps args stepIndex argumentIndex options
        sets fills depth = (options, sets, fills, depth) := by
      rw [parseFromInstr]
      rcases args[argumentIndex]? with _ | value <;>
        rcases options[stepIndex]? with _ | opt <;> simp [dif_neg hge]
    rw [hstuck]
    exact ⟨fun i _ => ⟨rfl, rfl⟩, fun i _ =>
      ⟨Nat.le_add_right _ _, fun st _ => Nat.le_add_right _ _⟩⟩
  | succ m ih =>
    rw [parseFromInstr]
    rcases hval : args[argumentIndex]? with _ | value <;>
      rcases hopt : options[stepIndex]? with _ | opt
    · exact ⟨fun i _ => ⟨rfl, rfl⟩, fun i _ =>
        ⟨Nat.le_add_right _ _, fun st _ => Nat.le_add_right _ _⟩⟩
    · exact ⟨fun i _ => ⟨rfl, rfl⟩, fun i _ =>
        ⟨Nat.le_add_right _ _, fun st _ => Nat.le_add_right _ _⟩⟩
    · exact ⟨fun i _ => ⟨rfl, rfl⟩, fun i _ =>
        ⟨Nat.le_add_right _ _, fun st _ => Nat.le_add_right _ _⟩⟩
    · by_cases hlt : stepIndex < steps.length
      · simp only [dif_pos hlt]
        by_cases hsome :
            (runStepParsersCount opt value steps[stepIndex].parsers).1.isSome
              = true
        · simp only [if_pos hsome]
          have IH := ih (stepIndex + 1) (argumentIndex + 1)
            (options.set stepIndex
              (runStepParsersCount opt value steps[stepIndex].parsers).1)
            (fun i => if i = stepIndex then
              sets i + (runStepParsersCount opt value
                steps[stepIndex].parsers).2.1 else sets i)
            (fun i => if i = stepIndex then
              fills i + (runStepParsersCount opt value
                steps[stepIndex].parsers).2.2 else fills i)
            (depth + 1) (by omega)
          constructor
          · intro i hi
            have hfr := IH.1 i (by omega)
            have hne : ¬ i = stepIndex := by omega
            refine ⟨?_, ?_⟩
            · rw [hfr.1]
              simp only [if_neg hne]
            · rw [hfr.2]
              simp only [if_neg hne]
          · intro i hi
            rcases Nat.eq_or_lt_of_le hi with heq | hgt
            · rw [← heq]
              have hfr := IH.1 stepIndex (Nat.lt_succ_self stepIndex)
              refine ⟨?_, ?_⟩
              · rw [hfr.2]
                have hc := runStepParsersCount_fillCalls_le opt value
                  steps[stepIndex].parsers
                simp <;> omega
              · intro st hst
                have hstep : steps[stepIndex] = st :=
                  List.getElem_eq_of_some steps stepIndex st hlt hst
                rw [hfr.1, ← hstep]
                have hc := runStepParsersCount_setCalls_le opt value
                  steps[stepIndex].parsers
                simp <;> omega
            · have hb := IH.2 i (by omega)
              have hne : ¬ i = stepIndex := by omega
              refine ⟨?_, ?_⟩
              · have := hb.1
                simp only [if_neg hne] at this
                exact this
              · intro st hst
                have := hb.2 st hst
                simp only [if_neg hne] at this
                exact this
        · by_cases hreq : steps[stepIndex].required = true
          · simp only [if_neg hsome, if_pos hreq]
            constructor
            · intro i hi
              have hne : ¬ i = stepIndex := by omega
              exact ⟨by simp only [if_neg hne], by simp only [if_neg hne]⟩
            · intro i hi
              rcases Nat.eq_or_lt_of_le hi with heq | hgt
              · rw [← heq]
                refine ⟨?_, ?_⟩
                · have hc := runStepParsersCount_fillCalls_le opt value
                    steps[stepIndex].parsers
                  simp <;> omega
                · intro st hst
                  have hstep : steps[stepIndex] = st :=
                    List.getElem_eq_of_some steps stepIndex st hlt hst
                  rw [← hstep]
                  have hc := runStepParsersCount_setCalls_le opt value
                    steps[stepIndex].parsers
                  simp <;> omega
              · have hne : ¬ i = stepIndex := by omega
                refine ⟨?_, ?_⟩
                · show (if i = stepIndex then _ else fills i) ≤ fills i + 1
                  simp only [if_neg hne]
                  omega
                · intro st hst
                  show (if i = stepIndex then _ else sets i) ≤
                    sets i + st.parsers.length
                  simp only [if_neg hne]
                  exact Nat.le_add_right _ _
          · simp only [if_neg hsome, if_neg hreq]
            have IH := ih (stepIndex + 1) argumentIndex
              (options.set stepIndex
                (runStepParsersCount opt value steps[stepIndex].parsers).1)
              (fun i => if i = stepIndex then
                sets i + (runStepParsersCount opt value
                  steps[stepIndex].parsers).2.1 else sets i)
              (fun i => if i = stepIndex then
                fills i + (runStepParsersCount opt value
                  steps[stepIndex].parsers).2.2 else fills i)
              (depth + 1) (by omega)
            constructor
            · intro i hi
              have hfr := IH.1 i (by omega)
              have hne : ¬ i = stepIndex := by omega
              refine ⟨?_, ?_⟩
              · rw [hfr.1]
                simp only [if_neg hne]
              · rw [hfr.2]
                simp only [if_neg hne]
            · intro i hi
              rcases Nat.eq_or_lt_of_le hi with heq | hgt
              · rw [← heq]
                have hfr := IH.1 stepIndex (Nat.lt_succ_self stepIndex)
                refine ⟨?_, ?_⟩
                · rw [hfr.2]
                  have hc := runStepParsersCount_fillCalls_le opt value
                    steps[stepIndex].parsers
                  simp <;> omega
                · intro st hst
                  have hstep : steps[stepIndex] = st :=
                    List.getElem_eq_of_some steps stepIndex st hlt hst
                  rw [hfr.1, ← hstep]
                  have hc := runStepParsersCount_setCalls_le opt value
                    steps[stepIndex].parsers
                  simp <;> omega
              · have hb := IH.2 i (by omega)
                have hne : ¬ i = stepIndex := by omega
                refine ⟨?_, ?_⟩
                · have := hb.1
                  simp only [if_neg hne] at this
                  exact this
                · intro st hst
                  have := hb.2 st hst
                  simp only [if_neg hne] at this
                  exact this
      · refine ⟨fun i _ => ⟨?_, ?_⟩, fun i _ => ⟨?_, fun st _ => ?_⟩⟩ <;>
          simp [dif_neg hlt] <;> omega

/-- The recursion depth of the instrumented resolver grows by at most the
number of steps not yet visited: each recursive call advances the step
cursor. -/
theorem parseFromInstr_depth_le {V : Type} (steps : List (ParseStep V))
    (args : List String) (stepIndex argumentIndex : Nat)
    (options : List (Option V)) (sets fills : Nat → Nat) (depth : Nat) :
    (parseFromInstr steps args stepIndex argumentIndex options sets fills
        depth).2.2.2 ≤ depth + (steps.length - stepIndex) := by
  obtain ⟨m, hm⟩ : ∃ m, steps.length - stepIndex = m := ⟨_, rfl⟩
  induction m generalizing stepIndex argumentIndex options sets fills depth with
  | zero =>
    have hge : ¬ stepIndex < steps.length := by omega
    have hstuck : parseFromInstr steps args stepIndex argumentIndex options
        sets fills depth = (options, sets, fills, depth) := by
      rw [parseFromInstr]
      rcases args[argumentIndex]? with _ | value <;>
        rcases options[stepIndex]? with _ | opt <;> simp [dif_neg hge]
    rw [hstuck]
    exact Nat.le_add_right depth _
  | succ m ih =>
    rw [parseFromInstr]
    rcases hval : args[argumentIndex]? with _ | value <;>
      rcases hopt : options[stepIndex]? with _ | opt
    · exact Nat.le_add_right depth _
    · exact Nat.le_add_right depth _
    · exact Nat.le_add_right depth _
    · by_cases hlt : stepIndex < steps.length
      · simp only [dif_pos hlt]
        by_cases hsome :
            (runStepParsersCount opt value steps[stepIndex].parsers).1.isSome
              = true
        · simp only [if_pos hsome]
          have := ih (stepIndex + 1) (argumentIndex + 1)
            (options.set stepIndex
              (runStepParsersCount opt value steps[stepIndex].parsers).1)
            (fun i => if i = stepIndex then
              sets i + (runStepParsersCount opt value
                steps[stepIndex].parsers).2.1 else sets i)
            (fun i => if i = stepIndex then
              fills i + (runStepParsersCount opt value
                steps[stepIndex].parsers).2.2 else fills i)
            (depth + 1) (by omega)
          omega
        · by_cases hreq : steps[stepIndex].required = true
          · simp only [if_neg hsome, if_pos hreq]
            show depth ≤ depth + (steps.length - stepIndex)
            exact Nat.le_add_right depth _
          · simp only [if_neg hsome, if_neg hreq]
            have := ih (stepIndex + 1) argumentIndex
              (options.set stepIndex
                (runStepParsersCount opt value steps[stepIndex].parsers).1)
              (fun i => if i = stepIndex then
                sets i + (runStepParsersCount opt value
                  steps[stepIndex].parsers).2.1 else sets i)
              (fun i => if i = stepIndex then
                fills i + (runStepParsersCount opt value
                  steps[stepIndex].parsers).2.2 else fills i)
              (depth + 1) (by omega)
            omega
      · have : ¬ stepIndex < steps.length := hlt
        simp only [dif_neg this]
        exact Nat.le_add_right depth _

/-- C5 counterexample: one token and two optional parserless steps make the
resolver recurse twice — `compileDepth` is 2 although
`min(token count, step count)` is 1, so the claimed bound fails. -/
theorem resolution_depth_min_counterexample :
    compileDepth [ParseStep.mk ([] : List (ArgumentValueParser Nat)) false,
        ParseStep.mk [] false] ["a"] = 2 ∧
    ¬ (compileDepth [ParseStep.mk ([] : List (ArgumentValueParser Nat)) false,
          ParseStep.mk [] false] ["a"] ≤
        min (List.length ["a"])
          (List.length [ParseStep.mk ([] : List (ArgumentValueParser Nat))
            false, ParseStep.mk [] false])) := by
  have h2 : compileDepth [ParseStep.mk ([] : List (ArgumentValueParser Nat))
      false, ParseStep.mk [] false] ["a"] = 2 := by
    simp [compileDepth, compileInstr, parseFromInstr, runStepParsersCount]
  refine ⟨h2, ?_⟩
  rw [h2]
  simp

/-- C5 (amended): resolution is a total, bounded computation — the embedding
of `parseFrom` is a terminating function — and its recursion depth is at most
the number of steps; the token count is no bound, since an optional miss
advances the step cursor without consuming a token. -/
theorem resolution_depth_le_step_count {V : Type} (steps : List (ParseStep V))
    (args : List String) :
    compileDepth steps args ≤ steps.length := by
  have h := parseFromInstr_depth_le steps args 0 0
    (List.replicate steps.length none) (fun _ => 0) (fun _ => 0) 0
  simpa [compileDepth, compileInstr] using h

/-- C8 counterexample: one step with two parsers where only the second
matches makes the engine call `set` twice on slot 0 — once with `undefined`
from the failing parser and once with the value — so a slot can receive more
than one `set` call. -/
theorem slot_single_set_counterexample :
    compileSetCalls [ParseStep.mk [pFailNat, pZeroNat] false] ["x"] 0 = 2 ∧
    ¬ (∀ i, compileSetCalls [ParseStep.mk [pFailNat, pZeroNat] false] ["x"] i
        ≤ 1) := by
  have h : compileSetCalls [ParseStep.mk [pFailNat, pZeroNat] false] ["x"] 0
      = 2 := by
    simp [compileSetCalls, compileInstr, parseFromInstr, runStepParsersCount,
      pFailNat, pZeroNat, OptionCell.set]
  refine ⟨h, fun hall => ?_⟩
  have := hall 0
  omega

/-- C8 (amended): during one resolution run each output slot receives at
most one `set` call per parser of its step — so at most
`steps[i].parsers.length` calls in total, not at most one — and at most one
of those calls carries a value: once a slot is filled, no further `set` call
reaches it. -/
theorem slot_set_call_bounds {V : Type} (steps : List (ParseStep V))
    (args : List String) :
    (∀ i, compileFillCalls steps args i ≤ 1) ∧
    (∀ i st, steps[i]? = some st →
      compileSetCalls steps args i ≤ st.parsers.length) := by
  have h := parseFromInstr_counts steps args 0 0
    (List.replicate steps.length none) (fun _ => 0) (fun _ => 0) 0
  constructor
  · intro i
    have := (h.2 i (Nat.zero_le i)).1
    simpa [compileFillCalls, compileInstr] using this
  · intro i st hst
    have := (h.2 i (Nat.zero_le i)).2 st hst
    simpa [compileSetCalls, compileInstr] using this

/-- Witness for C8 (amended) on a concrete input: the slot of a
two-parser step receives at most two set calls and at most one filling one. -/
theorem slot_set_call_bounds_witness :
    compileFillCalls [ParseStep.mk [pFailNat, pZeroNat] false] ["x"] 0 ≤ 1 ∧
    compileSetCalls [ParseStep.mk [pFailNat, pZeroNat] false] ["x"] 0 ≤
      (ParseStep.mk [pFailNat, pZeroNat] false).parsers.length :=
  And.intro
    ((slot_set_call_bounds [ParseStep.mk [pFailNat, pZeroNat] false] ["x"]).1 0)
    ((slot_set_call_bounds [ParseStep.mk [pFailNat, pZeroNat] false]
      ["x"]).2 0 (ParseStep.mk [pFailNat, pZeroNat] false) rfl)

/-- C10: calling `thenIf` with a false condition appends a step whose parser
list is empty and whose required flag is false, whatever `required` argument
was passed; the declared output arity still grows by one, and whenever any
resolution reaches such a parserless optional step it fills nothing, consumes
no token and does not abort: it continues at the next step with the same
token and an unchanged output sequence. -/
theorem thenIf_false_appends_skip_step {V : Type} (steps : List (ParseStep V))
    (parsers : List (ArgumentValueParser V)) (required : Bool)
    (args : List String) :
    ArgumentDescriptor.thenIf steps false parsers required =
      steps ++ [ParseStep.mk [] false] ∧
    (ArgumentDescriptor.compile
        (ArgumentDescriptor.thenIf steps false parsers required)
        args).length = steps.length + 1 ∧
    (∀ steps2 : List (ParseStep V), ∀ k j : Nat,
      ∀ options : List (Option V), ∀ value : String,
      steps2[k]? = some (ParseStep.mk [] false) →
      args[j]? = some value →
      options[k]? = some none →
      parseFrom steps2 args k j options =
        parseFrom steps2 args (k + 1) j options) := by
  refine ⟨by simp [ArgumentDescriptor.thenIf], ?_, ?_⟩
  · rw [compile_length]
    simp [ArgumentDescriptor.thenIf]
  · intro steps2 k j options value hs hv ho
    exact parseFrom_optional_miss steps2 args k j options value
      (ParseStep.mk [] false) hv hs ho rfl (by intro p hp; simp at hp)

/-- Witness for C10 on a concrete input: appending through a false `thenIf`
with `required = true` yields a parserless optional step, the compiled output
grows to two slots, and resolution skips the step without consuming the
token. -/
theorem thenIf_false_appends_skip_step_witness :
    ArgumentDescriptor.thenIf [ParseStep.mk [pZeroNat] false] false
        [pFiveNat] true =
      [ParseStep.mk [pZeroNat] false] ++ [ParseStep.mk [] false] ∧
    (ArgumentDescriptor.compile
        (ArgumentDescriptor.thenIf [ParseStep.mk [pZeroNat] false] false
          [pFiveNat] true) ["x"]).length = 2 ∧
    parseFrom [ParseStep.mk ([] : List (ArgumentValueParser Nat)) false]
        ["x"] 0 0 [none] =
      parseFrom [ParseStep.mk ([] : List (ArgumentValueParser Nat)) false]
        ["x"] 1 0 [none] :=
  And.intro
    (thenIf_false_appends_skip_step [ParseStep.mk [pZeroNat] false]
      [pFiveNat] true ["x"]).1
    (And.intro
      (thenIf_false_appends_skip_step [ParseStep.mk [pZeroNat] false]
        [pFiveNat] true ["x"]).2.1
      ((thenIf_false_appends_skip_step
          ([ParseStep.mk ([] : List (ArgumentValueParser Nat)) false]) [] false
          ["x"]).2.2
        [ParseStep.mk [] false] 0 0 [none] "x" rfl rfl rfl))
